import Mathlib

/-!
Shallow embedding of the catalog-reconciliation core of the
`seller-apis` repository (`src/seller.py` for the Ozon marketplace,
`src/market.py` for Yandex.Market).

Modelling conventions:

* Spreadsheet rows (`watch_remnants` entries) are records with the three
  string-valued columns the code reads: `"Код"` (sku), `"Количество"`
  (raw quantity), `"Цена"` (raw price).  The code always wraps the sku
  in `str(...)`, and the quantity is compared as a string, so keeping
  them as `String` is faithful.
* Python's `int(...)` builtin is modelled by `pyInt`: strip surrounding
  whitespace, accept an optional sign followed by a nonempty run of
  ASCII digits.  (Underscore digit grouping and non-ASCII digits are not
  modelled; no claim depends on them.)  A raised `ValueError`
  (the spec's `FormatError`) is modelled by `none`.
* The in-place mutation of the Python list `offer_ids` by
  `create_stocks` (`offer_ids.remove(...)`) is made observable by having
  the loop return the final value of the list alongside the result;
  `List.erase` matches `list.remove` (first occurrence).
* `datetime.datetime.utcnow()` in `market.create_stocks` is the one
  impure input of that function; it is passed in as the explicit `date`
  argument.
* The paginated HTTP collaborators are modelled as functions from the
  cursor to the page; the unbounded `while True:` walkers are modelled
  with explicit fuel, `none` meaning the loop did not finish within
  `fuel` iterations.
-/

/-- One row of the local inventory snapshot: the spreadsheet columns read
by the code, kept as raw strings. -/
structure InventoryRecord where
  kod : String
  kolichestvo : String
  tsena : String
deriving DecidableEq

/-- Whitespace stripping performed by Python `int(...)` on its argument. -/
def stripWs (l : List Char) : List Char :=
  ((l.dropWhile Char.isWhitespace).reverse.dropWhile Char.isWhitespace).reverse

/-- Numeric value of an ASCII digit character. -/
def digitVal (c : Char) : Nat := c.toNat - 48

/-- Base-10 value of a list of digit characters. -/
def digitsVal (l : List Char) : Nat :=
  l.foldl (fun acc c => 10 * acc + digitVal c) 0

/-- Unsigned core of Python `int(...)`: a nonempty all-digit string parses,
anything else raises (modelled by `none`). -/
def pyIntCore (l : List Char) : Option Int :=
  if !l.isEmpty && l.all Char.isDigit then some (digitsVal l) else none

/-- Python `int(raw)` on a string: strip whitespace, optional sign, digits. -/
def pyInt (s : String) : Option Int :=
  match stripWs s.data with
  | '-' :: rest => (pyIntCore rest).map (fun n => -n)
  | '+' :: rest => pyIntCore rest
  | l => pyIntCore l

/-- Quantity normalisation inlined in both `create_stocks` implementations:
the sentinel `">10"` means 100, the sentinel `"1"` means 0, anything else
goes through Python `int(...)`. -/
def normalizeQuantity (raw : String) : Option Int :=
  if raw = ">10" then some 100
  else if raw = "1" then some 0
  else pyInt raw

namespace Seller

/-- One element of the list returned by `seller.create_stocks`:
the dict literal at src/seller.py:190. -/
structure StockUpdate where
  offer_id : String
  stock : Int
deriving DecidableEq

/-- The matching loop of `seller.create_stocks` (src/seller.py:180-191).
Returns the accumulated stock updates in order together with the final
value of the mutated `offer_ids` list; `none` models the `ValueError`
raised by `int(...)` on an unparseable quantity. -/
def create_stocksAux : List InventoryRecord → List String →
    Option (List StockUpdate × List String)
  | [], offer_ids => some ([], offer_ids)
  | w :: ws, offer_ids =>
    if w.kod ∈ offer_ids then
      match normalizeQuantity w.kolichestvo with
      | none => none
      | some stock =>
        match create_stocksAux ws (offer_ids.erase w.kod) with
        | none => none
        | some (rest, ids2) => some ({ offer_id := w.kod, stock := stock } :: rest, ids2)
    else create_stocksAux ws offer_ids

/-- `seller.create_stocks` (src/seller.py:164-194): the matching loop
followed by the quantity-0 loop over the leftover `offer_ids`. -/
def create_stocks (watch_remnants : List InventoryRecord) (offer_ids : List String) :
    Option (List StockUpdate) :=
  match create_stocksAux watch_remnants offer_ids with
  | none => none
  | some (st, rest) => some (st ++ rest.map (fun oid => { offer_id := oid, stock := 0 }))

/-- The value of the caller's `offer_ids` list after `seller.create_stocks`
returns: the function removes each matched sku in place. -/
def offer_idsAfter (watch_remnants : List InventoryRecord) (offer_ids : List String) :
    Option (List String) :=
  (create_stocksAux watch_remnants offer_ids).map Prod.snd

/-- `seller.price_conversion` (src/seller.py:227-243):
`re.sub("[^0-9]", "", price.split(".")[0])` — keep the characters before
the first dot, then drop every non-ASCII-digit character. -/
def price_conversion (price : String) : String :=
  String.mk ((price.data.takeWhile (fun c => c != '.')).filter Char.isDigit)

/-- One element of the list returned by `seller.create_prices`:
the dict literal at src/seller.py:216-222.  The price stays a string. -/
structure SellerPrice where
  auto_action_enabled : String
  currency_code : String
  offer_id : String
  old_price : String
  price : String
deriving DecidableEq

/-- `seller.create_prices` (src/seller.py:197-224).  Note: no mutation of
`offer_ids` and no integer parse of the converted price. -/
def create_prices : List InventoryRecord → List String → List SellerPrice
  | [], _ => []
  | w :: ws, offer_ids =>
    if w.kod ∈ offer_ids then
      { auto_action_enabled := "UNKNOWN", currency_code := "RUB",
        offer_id := w.kod, old_price := "0",
        price := price_conversion w.tsena } :: create_prices ws offer_ids
    else create_prices ws offer_ids

/-- `seller.divide` (src/seller.py:246-263): `lst[i : i + n]` for
`i in range(0, len(lst), n)`, i.e. successive slices of length `n`.
Python raises `ValueError` on step `n = 0`; that case is modelled as no
chunks (every claim assumes `n > 0`). -/
def divide : List α → Nat → List (List α)
  | _, 0 => []
  | [], _ + 1 => []
  | a :: l, n + 1 => (a :: l).take (n + 1) :: divide ((a :: l).drop (n + 1)) (n + 1)
termination_by l _ => l.length
decreasing_by simp [List.length_drop]; omega

/-- One page of the Ozon product-list endpoint as read by
`seller.get_offer_ids`: the `items`, `total` and `last_id` fields. -/
structure OzonProduct where
  offer_id : String
deriving DecidableEq

/-- Response fields of `seller.get_product_list` used by the walker. -/
structure OzonPage where
  items : List OzonProduct
  total : Nat
  last_id : String

/-- The `while True:` loop of `seller.get_offer_ids` (src/seller.py:65-73),
with fuel.  Note the stopping criterion: `total == len(product_list)`,
not the cursor. -/
def walk (fetch : String → OzonPage) : Nat → String → List OzonProduct →
    Option (List OzonProduct)
  | 0, _, _ => none
  | fuel + 1, last_id, acc =>
    let p := fetch last_id
    let acc2 := acc ++ p.items
    if p.total = acc2.length then some acc2
    else walk fetch fuel p.last_id acc2

/-- `seller.get_offer_ids` (src/seller.py:49-77) with fuel: run the walk
from the empty cursor, then project each product's `offer_id`. -/
def get_offer_ids (fetch : String → OzonPage) (fuel : Nat) : Option (List String) :=
  (walk fetch fuel "" []).map (fun l => l.map OzonProduct.offer_id)

end Seller

namespace Market

/-- The `items` entry of a Yandex.Market stock update
(src/market.py:174-181). -/
structure MarketStockItem where
  count : Int
  type : String
  updatedAt : String
deriving DecidableEq

/-- One element of the list returned by `market.create_stocks`
(src/market.py:170-182). -/
structure MarketStockUpdate where
  sku : String
  warehouseId : String
  items : List MarketStockItem
deriving DecidableEq

/-- The matching loop of `market.create_stocks` (src/market.py:161-183),
returning the updates and the final value of the mutated `offer_ids`. -/
def create_stocksAux (warehouse_id date : String) :
    List InventoryRecord → List String →
    Option (List MarketStockUpdate × List String)
  | [], offer_ids => some ([], offer_ids)
  | w :: ws, offer_ids =>
    if w.kod ∈ offer_ids then
      match normalizeQuantity w.kolichestvo with
      | none => none
      | some stock =>
        match create_stocksAux warehouse_id date ws (offer_ids.erase w.kod) with
        | none => none
        | some (rest, ids2) =>
          some ({ sku := w.kod, warehouseId := warehouse_id,
                  items := [{ count := stock, type := "FIT", updatedAt := date }] } :: rest,
                ids2)
    else create_stocksAux warehouse_id date ws offer_ids

/-- `market.create_stocks` (src/market.py:142-198).  The `date` argument
models the single `datetime.datetime.utcnow()...` computed at the start of
the call (src/market.py:160). -/
def create_stocks (watch_remnants : List InventoryRecord) (offer_ids : List String)
    (warehouse_id date : String) : Option (List MarketStockUpdate) :=
  match create_stocksAux warehouse_id date watch_remnants offer_ids with
  | none => none
  | some (st, rest) =>
    some (st ++ rest.map (fun oid =>
      { sku := oid, warehouseId := warehouse_id,
        items := [{ count := 0, type := "FIT", updatedAt := date }] }))

/-- The nested `price` dict of a Yandex.Market price update
(src/market.py:222-225). -/
structure MarketPriceValue where
  value : Int
  currencyId : String
deriving DecidableEq

/-- One element of the list returned by `market.create_prices`
(src/market.py:220-226). -/
structure MarketPrice where
  id : String
  price : MarketPriceValue
deriving DecidableEq

/-- `market.create_prices` (src/market.py:201-228): unlike the Ozon
variant it parses the converted price with `int(...)`; `none` models the
raised `ValueError`.  `offer_ids` is not mutated. -/
def create_prices : List InventoryRecord → List String → Option (List MarketPrice)
  | [], _ => some []
  | w :: ws, offer_ids =>
    if w.kod ∈ offer_ids then
      match pyInt (Seller.price_conversion w.tsena) with
      | none => none
      | some v =>
        match create_prices ws offer_ids with
        | none => none
        | some rest => some ({ id := w.kod, price := { value := v, currencyId := "RUR" } } :: rest)
    else create_prices ws offer_ids

/-- Response fields of `market.get_product_list` used by the walker:
`offerMappingEntries` items carrying `offer.shopSku`, and
`paging.nextPageToken` (the empty string models both an empty and an
absent token — both are falsy in `if not page`). -/
structure MarketEntry where
  shopSku : String
deriving DecidableEq

/-- One page of the Yandex.Market offer-mapping endpoint. -/
structure MarketPage where
  offerMappingEntries : List MarketEntry
  nextPageToken : String

/-- The `while True:` loop of `market.get_offer_ids`
(src/market.py:130-135), with fuel.  The stopping criterion is
`if not page: break` — solely the cursor. -/
def walk (fetch : String → MarketPage) : Nat → String → List MarketEntry →
    Option (List MarketEntry)
  | 0, _, _ => none
  | fuel + 1, page, acc =>
    let p := fetch page
    let acc2 := acc ++ p.offerMappingEntries
    if p.nextPageToken = "" then some acc2
    else walk fetch fuel p.nextPageToken acc2

/-- `market.get_offer_ids` (src/market.py:112-139) with fuel. -/
def get_offer_ids (fetch : String → MarketPage) (fuel : Nat) : Option (List String) :=
  (walk fetch fuel "" []).map (fun l => l.map MarketEntry.shopSku)

/-- The sequence of cursors a deterministic collaborator produces:
`chain fetch c k` is the cursor in hand after `k` fetches starting
from `c`. -/
def chain (fetch : String → MarketPage) (c : String) : Nat → String
  | 0 => c
  | k + 1 => (fetch (chain fetch c k)).nextPageToken

end Market

/-- Two-phase decomposition of the matching loop shared by both
`create_stocks` implementations: the list of snapshot skus matched (in
snapshot order) and the leftover of the `offer_ids` list (in its
residual order after the in-place removals). -/
def scanIds : List InventoryRecord → List String → List String × List String
  | [], offer_ids => ([], offer_ids)
  | w :: ws, offer_ids =>
    if w.kod ∈ offer_ids then
      let p := scanIds ws (offer_ids.erase w.kod)
      (w.kod :: p.1, p.2)
    else scanIds ws offer_ids

/-- Truncation of a raw price at its first dot, phrased as the spec words
it (scan to the first dot and discard the rest); proved equal to the
`split(".")[0]` step of `price_conversion`. -/
def truncAtFirstDot : List Char → List Char
  | [] => []
  | c :: cs => if c = '.' then [] else c :: truncAtFirstDot cs

/-- A concrete Ozon collaborator whose continuation cursor is never empty
but whose reported `total` equals the number of items delivered by the
first page. -/
def fetchTotalStop : String → Seller.OzonPage :=
  fun _ => { items := [{ offer_id := "A" }], total := 1, last_id := "NEXT" }

/-- A concrete single-page Yandex.Market collaborator: one entry and an
empty continuation cursor. -/
def fetchOnePage : String → Market.MarketPage :=
  fun _ => { offerMappingEntries := [{ shopSku := "A" }], nextPageToken := "" }

/-! ## Lemmas about the scan decomposition -/

theorem scanIds_append_perm (ws : List InventoryRecord) :
    ∀ ids : List String, ((scanIds ws ids).1 ++ (scanIds ws ids).2).Perm ids := by
  induction ws with
  | nil => intro ids; simp [scanIds]
  | cons w ws ih =>
    intro ids
    by_cases h : w.kod ∈ ids
    · simp only [scanIds, if_pos h, List.cons_append]
      exact ((ih (ids.erase w.kod)).cons w.kod).trans (List.perm_cons_erase h).symm
    · simpa only [scanIds, if_neg h] using ih ids

theorem scanIds_snd_sublist (ws : List InventoryRecord) :
    ∀ ids : List String, (scanIds ws ids).2.Sublist ids := by
  induction ws with
  | nil => intro ids; simp [scanIds]
  | cons w ws ih =>
    intro ids
    by_cases h : w.kod ∈ ids
    · simp only [scanIds, if_pos h]
      exact (ih (ids.erase w.kod)).trans (List.erase_sublist _ _)
    · simpa only [scanIds, if_neg h] using ih ids

namespace Seller

theorem sellerAux_scan (ws : List InventoryRecord) :
    ∀ ids st rest, create_stocksAux ws ids = some (st, rest) →
      st.map StockUpdate.offer_id = (scanIds ws ids).1 ∧ rest = (scanIds ws ids).2 := by
  induction ws with
  | nil =>
    intro ids st rest h
    simp only [create_stocksAux, Option.some.injEq, Prod.mk.injEq] at h
    simp [scanIds, ← h.1, ← h.2]
  | cons w ws ih =>
    intro ids st rest h
    by_cases hmem : w.kod ∈ ids
    · simp only [create_stocksAux, if_pos hmem] at h
      cases hn : normalizeQuantity w.kolichestvo with
      | none => rw [hn] at h; exact absurd h (by simp)
      | some stock =>
        rw [hn] at h
        cases ha : create_stocksAux ws (ids.erase w.kod) with
        | none => rw [ha] at h; exact absurd h (by simp)
        | some p =>
          rw [ha] at h
          obtain ⟨st', rest'⟩ := p
          simp only [Option.some.injEq, Prod.mk.injEq] at h
          obtain ⟨hst, hrest⟩ := h
          obtain ⟨ih1, ih2⟩ := ih (ids.erase w.kod) st' rest' ha
          subst hst hrest
          simp [scanIds, if_pos hmem, ih1, ih2]
    · simp only [create_stocksAux, if_neg hmem] at h
      simpa only [scanIds, if_neg hmem] using ih ids st rest h

theorem sellerAux_values (ws : List InventoryRecord) :
    ∀ ids st rest, create_stocksAux ws ids = some (st, rest) →
      ∀ u ∈ st, ∃ w ∈ ws, u.offer_id = w.kod ∧
        normalizeQuantity w.kolichestvo = some u.stock := by
  induction ws with
  | nil =>
    intro ids st rest h
    simp only [create_stocksAux, Option.some.injEq, Prod.mk.injEq] at h
    intro u hu
    rw [← h.1] at hu
    exact absurd hu (List.not_mem_nil u)
  | cons w ws ih =>
    intro ids st rest h
    by_cases hmem : w.kod ∈ ids
    · simp only [create_stocksAux, if_pos hmem] at h
      cases hn : normalizeQuantity w.kolichestvo with
      | none => rw [hn] at h; exact absurd h (by simp)
      | some stock =>
        rw [hn] at h
        cases ha : create_stocksAux ws (ids.erase w.kod) with
        | none => rw [ha] at h; exact absurd h (by simp)
        | some p =>
          rw [ha] at h
          obtain ⟨st', rest'⟩ := p
          simp only [Option.some.injEq, Prod.mk.injEq] at h
          obtain ⟨hst, _⟩ := h
          intro u hu
          rw [← hst] at hu
          rcases List.mem_cons.mp hu with hu0 | hu'
          · subst hu0; exact ⟨w, List.mem_cons_self w ws, rfl, hn⟩
          · obtain ⟨w', hw', hid, hq⟩ := ih (ids.erase w.kod) st' rest' ha u hu'
            exact ⟨w', List.mem_cons_of_mem w hw', hid, hq⟩
    · simp only [create_stocksAux, if_neg hmem] at h
      intro u hu
      obtain ⟨w', hw', hid, hq⟩ := ih ids st rest h u hu
      exact ⟨w', List.mem_cons_of_mem w hw', hid, hq⟩

theorem sellerAux_first_match (ws : List InventoryRecord) :
    ∀ ids s w q st rest, s ∈ ids →
      ws.find? (fun r => r.kod == s) = some w →
      normalizeQuantity w.kolichestvo = some q →
      create_stocksAux ws ids = some (st, rest) →
      StockUpdate.mk s q ∈ st := by
  induction ws with
  | nil => intro ids s w q st rest _ hfind _ _; simp at hfind
  | cons w0 ws ih =>
    intro ids s w q st rest hs hfind hq h
    by_cases hks : w0.kod = s
    · rw [List.find?_cons_of_pos _ (by simp [hks])] at hfind
      have hww : w0 = w := by simpa using hfind
      have hmem : w0.kod ∈ ids := by rw [hks]; exact hs
      have hq0 : normalizeQuantity w0.kolichestvo = some q := by rw [hww]; exact hq
      simp only [create_stocksAux, if_pos hmem] at h
      rw [hq0] at h
      cases ha : create_stocksAux ws (ids.erase w0.kod) with
      | none => rw [ha] at h; exact absurd h (by simp)
      | some p =>
        rw [ha] at h
        obtain ⟨st', rest'⟩ := p
        simp only [Option.some.injEq, Prod.mk.injEq] at h
        rw [← h.1, hks]
        exact List.mem_cons_self _ _
    · rw [List.find?_cons_of_neg _ (by simp [hks])] at hfind
      by_cases hmem : w0.kod ∈ ids
      · simp only [create_stocksAux, if_pos hmem] at h
        cases hn : normalizeQuantity w0.kolichestvo with
        | none => rw [hn] at h; exact absurd h (by simp)
        | some stock =>
          rw [hn] at h
          cases ha : create_stocksAux ws (ids.erase w0.kod) with
          | none => rw [ha] at h; exact absurd h (by simp)
          | some p =>
            rw [ha] at h
            obtain ⟨st', rest'⟩ := p
            simp only [Option.some.injEq, Prod.mk.injEq] at h
            have hs' : s ∈ ids.erase w0.kod :=
              (List.mem_erase_of_ne (fun hc : s = w0.kod => hks hc.symm)).mpr hs
            have := ih (ids.erase w0.kod) s w q st' rest' hs' hfind hq ha
            rw [← h.1]
            exact List.mem_cons_of_mem _ this
      · simp only [create_stocksAux, if_neg hmem] at h
        exact ih ids s w q st rest hs hfind hq h

end Seller

namespace Market

theorem marketAux_scan (wh date : String) (ws : List InventoryRecord) :
    ∀ ids st rest, create_stocksAux wh date ws ids = some (st, rest) →
      st.map MarketStockUpdate.sku = (scanIds ws ids).1 ∧ rest = (scanIds ws ids).2 := by
  induction ws with
  | nil =>
    intro ids st rest h
    simp only [create_stocksAux, Option.some.injEq, Prod.mk.injEq] at h
    simp [scanIds, ← h.1, ← h.2]
  | cons w ws ih =>
    intro ids st rest h
    by_cases hmem : w.kod ∈ ids
    · simp only [create_stocksAux, if_pos hmem] at h
      cases hn : normalizeQuantity w.kolichestvo with
      | none => rw [hn] at h; exact absurd h (by simp)
      | some stock =>
        rw [hn] at h
        cases ha : create_stocksAux wh date ws (ids.erase w.kod) with
        | none => rw [ha] at h; exact absurd h (by simp)
        | some p =>
          rw [ha] at h
          obtain ⟨st', rest'⟩ := p
          simp only [Option.some.injEq, Prod.mk.injEq] at h
          obtain ⟨hst, hrest⟩ := h
          obtain ⟨ih1, ih2⟩ := ih (ids.erase w.kod) st' rest' ha
          subst hst hrest
          simp [scanIds, if_pos hmem, ih1, ih2]
    · simp only [create_stocksAux, if_neg hmem] at h
      simpa only [scanIds, if_neg hmem] using ih ids st rest h

theorem marketAux_date (wh date : String) (ws : List InventoryRecord) :
    ∀ ids st rest, create_stocksAux wh date ws ids = some (st, rest) →
      ∀ u ∈ st, ∀ it ∈ u.items, it.updatedAt = date := by
  induction ws with
  | nil =>
    intro ids st rest h
    simp only [create_stocksAux, Option.some.injEq, Prod.mk.injEq] at h
    intro u hu
    rw [← h.1] at hu
    exact absurd hu (List.not_mem_nil u)
  | cons w ws ih =>
    intro ids st rest h
    by_cases hmem : w.kod ∈ ids
    · simp only [create_stocksAux, if_pos hmem] at h
      cases hn : normalizeQuantity w.kolichestvo with
      | none => rw [hn] at h; exact absurd h (by simp)
      | some stock =>
        rw [hn] at h
        cases ha : create_stocksAux wh date ws (ids.erase w.kod) with
        | none => rw [ha] at h; exact absurd h (by simp)
        | some p =>
          rw [ha] at h
          obtain ⟨st', rest'⟩ := p
          simp only [Option.some.injEq, Prod.mk.injEq] at h
          intro u hu it hit
          rw [← h.1] at hu
          rcases List.mem_cons.mp hu with hu0 | hu'
          · subst hu0
            simp only [List.mem_singleton] at hit
            subst hit
            rfl
          · exact ih (ids.erase w.kod) st' rest' ha u hu' it hit
    · simp only [create_stocksAux, if_neg hmem] at h
      exact ih ids st rest h

end Market

/-! ## Shape of a successful create_stocks call -/

theorem Seller.sellerStocks_eq_some (ws : List InventoryRecord) (ids : List String)
    (stocks : List Seller.StockUpdate) (h : Seller.create_stocks ws ids = some stocks) :
    ∃ st rest, Seller.create_stocksAux ws ids = some (st, rest) ∧
      stocks = st ++ rest.map (fun oid => { offer_id := oid, stock := 0 }) := by
  unfold Seller.create_stocks at h
  cases ha : Seller.create_stocksAux ws ids with
  | none => rw [ha] at h; exact absurd h (by simp)
  | some p =>
    obtain ⟨st, rest⟩ := p
    rw [ha] at h
    simp only [Option.some.injEq] at h
    exact ⟨st, rest, rfl, h.symm⟩

theorem Market.marketStocks_eq_some (ws : List InventoryRecord) (ids : List String)
    (wh date : String) (stocks : List Market.MarketStockUpdate)
    (h : Market.create_stocks ws ids wh date = some stocks) :
    ∃ st rest, Market.create_stocksAux wh date ws ids = some (st, rest) ∧
      stocks = st ++ rest.map (fun oid =>
        { sku := oid, warehouseId := wh,
          items := [{ count := 0, type := "FIT", updatedAt := date }] }) := by
  unfold Market.create_stocks at h
  cases ha : Market.create_stocksAux wh date ws ids with
  | none => rw [ha] at h; exact absurd h (by simp)
  | some p =>
    obtain ⟨st, rest⟩ := p
    rw [ha] at h
    simp only [Option.some.injEq] at h
    exact ⟨st, rest, rfl, h.symm⟩

theorem Seller.sellerStocks_map_skus (ws : List InventoryRecord) (ids : List String)
    (stocks : List Seller.StockUpdate) (h : Seller.create_stocks ws ids = some stocks) :
    stocks.map Seller.StockUpdate.offer_id = (scanIds ws ids).1 ++ (scanIds ws ids).2 := by
  obtain ⟨st, rest, ha, rfl⟩ := Seller.sellerStocks_eq_some ws ids stocks h
  obtain ⟨h1, h2⟩ := Seller.sellerAux_scan ws ids st rest ha
  simp only [List.map_append, List.map_map, h1, h2]
  congr 1
  exact List.map_id'' (fun x => rfl) _

theorem Market.marketStocks_map_skus (ws : List InventoryRecord) (ids : List String)
    (wh date : String) (stocks : List Market.MarketStockUpdate)
    (h : Market.create_stocks ws ids wh date = some stocks) :
    stocks.map Market.MarketStockUpdate.sku = (scanIds ws ids).1 ++ (scanIds ws ids).2 := by
  obtain ⟨st, rest, ha, rfl⟩ := Market.marketStocks_eq_some ws ids wh date stocks h
  obtain ⟨h1, h2⟩ := Market.marketAux_scan wh date ws ids st rest ha
  simp only [List.map_append, List.map_map, h1, h2]
  congr 1
  exact List.map_id'' (fun x => rfl) _

theorem truncAtFirstDot_eq_takeWhile (l : List Char) :
    truncAtFirstDot l = l.takeWhile (fun c => c != '.') := by
  induction l with
  | nil => rfl
  | cons c cs ih =>
    by_cases h : c = '.'
    · subst h; simp [truncAtFirstDot, List.takeWhile_cons]
    · simp [truncAtFirstDot, List.takeWhile_cons, h, ih]

/-! ## Claim theorems (normalizers) -/

/-- C6: the quantity normalizer maps the sentinel ">10" to 100, the
sentinel "1" to 0, and every other raw token through the Python base-10
integer parse, failing (FormatError, i.e. none) when the token is not
parseable; e.g. "7" maps to 7 and "abc" fails. -/
theorem C6_normalize_quantity :
    normalizeQuantity ">10" = some 100 ∧ normalizeQuantity "1" = some 0 ∧
    normalizeQuantity "7" = some 7 ∧ normalizeQuantity "abc" = none ∧
    ∀ raw : String, raw ≠ ">10" → raw ≠ "1" → normalizeQuantity raw = pyInt raw := by
  refine ⟨by decide, by decide, by decide, by decide, ?_⟩
  intro raw h1 h2
  simp [normalizeQuantity, h1, h2]

theorem C6_normalize_quantity_witness :
    ("7" : String) ≠ ">10" ∧ ("7" : String) ≠ "1" ∧ normalizeQuantity "7" = pyInt "7" :=
  ⟨by decide, by decide, C6_normalize_quantity.2.2.2.2 "7" (by decide) (by decide)⟩

/-- C9: the price normalizer truncates the raw price at its first dot,
strips every non-digit character from the remaining prefix, and the
digit-only remainder parses as the stated integers on the spec's examples;
in general it agrees with the truncate-then-strip algorithm. -/
theorem C9_price_conversion :
    Seller.price_conversion "5\x27990.00 руб." = "5990" ∧
    pyInt (Seller.price_conversion "5\x27990.00 руб.") = some 5990 ∧
    Seller.price_conversion "199" = "199" ∧
    pyInt (Seller.price_conversion "199") = some 199 ∧
    ∀ p : String, Seller.price_conversion p =
      String.mk ((truncAtFirstDot p.data).filter Char.isDigit) := by
  refine ⟨by decide, by decide, by decide, by decide, ?_⟩
  intro p
  rw [truncAtFirstDot_eq_takeWhile]
  rfl

/-! ## Claim theorems (reconciler) -/

/-- C1: for a duplicate-free known-SKU list, a successful reconciliation
emits stock updates whose skus are exactly the original known skus — each
exactly once, no duplicates, no omissions — in the deterministic order of
snapshot-matched records (snapshot order) followed by the unmatched remote
skus (leftover order); the Yandex.Market reconciler emits the same sku
sequence. -/
theorem C1_reconcile_exact_cover (ws : List InventoryRecord) (ids : List String)
    (stocks : List Seller.StockUpdate) (stocksM : List Market.MarketStockUpdate)
    (wh date : String) (hnd : ids.Nodup)
    (h : Seller.create_stocks ws ids = some stocks)
    (hM : Market.create_stocks ws ids wh date = some stocksM) :
    stocks.map Seller.StockUpdate.offer_id = (scanIds ws ids).1 ++ (scanIds ws ids).2 ∧
    (stocks.map Seller.StockUpdate.offer_id).Perm ids ∧
    (stocks.map Seller.StockUpdate.offer_id).Nodup ∧
    stocksM.map Market.MarketStockUpdate.sku = stocks.map Seller.StockUpdate.offer_id := by
  have hs := Seller.sellerStocks_map_skus ws ids stocks h
  have hm := Market.marketStocks_map_skus ws ids wh date stocksM hM
  refine ⟨hs, ?_, ?_, ?_⟩
  · rw [hs]; exact scanIds_append_perm ws ids
  · rw [hs]; exact (scanIds_append_perm ws ids).symm.nodup hnd
  · rw [hs, hm]

theorem C1_reconcile_exact_cover_witness :
    (["A", "B"] : List String).Nodup ∧
    (([⟨"A", 7⟩, ⟨"B", 0⟩] : List Seller.StockUpdate).map
      Seller.StockUpdate.offer_id).Perm ["A", "B"] :=
  ⟨by decide,
   (C1_reconcile_exact_cover [⟨"A", "7", "100"⟩] ["A", "B"]
      [⟨"A", 7⟩, ⟨"B", 0⟩] [⟨"A", "W", [⟨7, "FIT", "D"⟩]⟩, ⟨"B", "W", [⟨0, "FIT", "D"⟩]⟩]
      "W" "D" (by decide) (by decide) (by decide)).2.1⟩

/-- C3 counterexample: seller.create_stocks is not pure in its offer_ids
argument — after a call matching sku "A", the caller's list has become []
instead of ["A"], and repeating the call with that mutated list yields a
different (empty) result. -/
theorem C3_purity_counterexample :
    Seller.offer_idsAfter [⟨"A", "7", "100"⟩] ["A"] = some [] ∧
    Seller.create_stocks [⟨"A", "7", "100"⟩] ["A"] = some [⟨"A", 7⟩] ∧
    Seller.create_stocks [⟨"A", "7", "100"⟩] [] = some [] ∧
    (some ([] : List String) ≠ some ["A"]) ∧
    (some ([] : List Seller.StockUpdate) ≠ some [⟨"A", 7⟩]) := by decide

/-- C3 amended: the snapshot argument is only read, and the result is a
deterministic function of the argument values, but create_stocks consumes
offer_ids in place: the post-call value of the list is exactly the
unmatched leftover — a sublist of the original — and every removed sku is
one of the matched ones. -/
theorem C3_mutation_amended (ws : List InventoryRecord) (ids rest : List String)
    (h : Seller.offer_idsAfter ws ids = some rest) :
    rest = (scanIds ws ids).2 ∧ rest.Sublist ids ∧
    ∀ s ∈ ids, s ∉ rest → s ∈ (scanIds ws ids).1 := by
  obtain ⟨p, hp, hrest⟩ := Option.map_eq_some'.mp h
  obtain ⟨st, rest'⟩ := p
  obtain ⟨-, h2⟩ := Seller.sellerAux_scan ws ids st rest' hp
  have hr : rest = (scanIds ws ids).2 := by rw [← hrest]; exact h2
  refine ⟨hr, ?_, ?_⟩
  · rw [hr]; exact scanIds_snd_sublist ws ids
  · intro s hsid hsr
    have : s ∈ (scanIds ws ids).1 ++ (scanIds ws ids).2 :=
      (scanIds_append_perm ws ids).mem_iff.mpr hsid
    rcases List.mem_append.mp this with h1 | h2'
    · exact h1
    · exact absurd (hr ▸ h2') hsr

theorem C3_mutation_amended_witness :
    ([] : List String) = (scanIds [⟨"A", "7", "100"⟩] ["A"]).2 ∧
    ([] : List String).Sublist ["A"] :=
  ⟨(C3_mutation_amended [⟨"A", "7", "100"⟩] ["A"] [] (by decide)).1,
   (C3_mutation_amended [⟨"A", "7", "100"⟩] ["A"] [] (by decide)).2.1⟩

/-- C4 counterexample: a snapshot record whose raw quantity is "-5" is
passed straight through the integer parse, so reconciliation emits a
StockUpdate with the negative quantity -5. -/
theorem C4_nonneg_counterexample :
    Seller.create_stocks [⟨"A", "-5", "0"⟩] ["A"] = some [⟨"A", -5⟩] ∧
    ¬ (0 ≤ (-5 : Int)) := by decide

/-- C4 amended: provided every snapshot quantity token normalizes to a
non-negative value (the sentinels give 100 and 0; a bare digit string is
non-negative), every emitted StockUpdate has a non-negative quantity; a
quantity is defined for every known remote sku, and the skus without a
snapshot match get exactly quantity 0. -/
theorem C4_nonneg_amended (ws : List InventoryRecord) (ids : List String)
    (stocks : List Seller.StockUpdate)
    (h : Seller.create_stocks ws ids = some stocks)
    (hq : ∀ w ∈ ws, ∀ q, normalizeQuantity w.kolichestvo = some q → 0 ≤ q) :
    (∀ u ∈ stocks, 0 ≤ u.stock) ∧
    (∀ s ∈ ids, ∃ u ∈ stocks, u.offer_id = s) ∧
    (∀ s ∈ (scanIds ws ids).2, Seller.StockUpdate.mk s 0 ∈ stocks) := by
  obtain ⟨st, rest, ha, rfl⟩ := Seller.sellerStocks_eq_some ws ids stocks h
  obtain ⟨h1, h2⟩ := Seller.sellerAux_scan ws ids st rest ha
  refine ⟨?_, ?_, ?_⟩
  · intro u hu
    rcases List.mem_append.mp hu with hu1 | hu2
    · obtain ⟨w, hwmem, -, hwq⟩ := Seller.sellerAux_values ws ids st rest ha u hu1
      exact hq w hwmem u.stock hwq
    · obtain ⟨oid, -, rfl⟩ := List.mem_map.mp hu2
      exact le_refl 0
  · intro s hsid
    have : s ∈ (scanIds ws ids).1 ++ (scanIds ws ids).2 :=
      (scanIds_append_perm ws ids).mem_iff.mpr hsid
    rcases List.mem_append.mp this with hs1 | hs2
    · rw [← h1] at hs1
      obtain ⟨u, hu, hus⟩ := List.mem_map.mp hs1
      exact ⟨u, List.mem_append_left _ hu, hus⟩
    · rw [← h2] at hs2
      exact ⟨⟨s, 0⟩, List.mem_append_right _ (List.mem_map_of_mem _ hs2), rfl⟩
  · intro s hs2
    rw [← h2] at hs2
    exact List.mem_append_right _ (List.mem_map_of_mem _ hs2)

theorem C4_nonneg_amended_witness :
    Seller.StockUpdate.mk "B" 0 ∈ ([⟨"A", 7⟩, ⟨"B", 0⟩] : List Seller.StockUpdate) :=
  (C4_nonneg_amended [⟨"A", "7", "100"⟩] ["A", "B"] [⟨"A", 7⟩, ⟨"B", 0⟩] (by decide)
    (by
      intro w hw q hqq
      simp only [List.mem_singleton] at hw
      subst hw
      rw [show normalizeQuantity "7" = some 7 from by decide] at hqq
      simp only [Option.some.injEq] at hqq
      omega)).2.2 "B" (by decide)

/-- C5 counterexample: on a price with no digit before its first dot,
normalization yields the empty string, but only the Yandex.Market path
fails on the integer parse — the Ozon path (seller.create_prices) performs
no parse and emits the PriceUpdate with an empty price string. -/
theorem C5_price_parse_counterexample :
    Seller.price_conversion ".99" = "" ∧
    Seller.create_prices [⟨"A", "5", ".99"⟩] ["A"] =
      [⟨"UNKNOWN", "RUB", "A", "0", ""⟩] ∧
    Market.create_prices [⟨"A", "5", ".99"⟩] ["A"] = none := by decide

/-- C5 amended: for every raw price with no digit before its first dot,
normalization yields the empty string; the Yandex.Market price builder
fails with FormatError on the integer parse, while the Ozon price builder
emits the update with the empty string unparsed. -/
theorem C5_empty_price_amended (p : String)
    (hp : (p.data.takeWhile (fun c => c != '.')).all (fun c => !c.isDigit)) :
    Seller.price_conversion p = "" ∧
    ∀ kod q ids, kod ∈ ids →
      Market.create_prices [⟨kod, q, p⟩] ids = none ∧
      Seller.create_prices [⟨kod, q, p⟩] ids = [⟨"UNKNOWN", "RUB", kod, "0", ""⟩] := by
  have hpc : Seller.price_conversion p = "" := by
    unfold Seller.price_conversion
    have hnil : (p.data.takeWhile (fun c => c != '.')).filter Char.isDigit = [] := by
      rw [List.filter_eq_nil_iff]
      intro a ha
      have := List.all_eq_true.mp hp a ha
      simpa using this
    rw [hnil]
  refine ⟨hpc, ?_⟩
  intro kod q ids hmem
  constructor
  · simp only [Market.create_prices, if_pos hmem]
    rw [hpc, show pyInt "" = none from by decide]
  · simp only [Seller.create_prices, if_pos hmem]
    rw [hpc]

theorem C5_empty_price_amended_witness :
    Seller.price_conversion ".99 руб." = "" ∧
    Market.create_prices [⟨"A", "5", ".99 руб."⟩] ["A"] = none :=
  ⟨(C5_empty_price_amended ".99 руб." (by decide)).1,
   ((C5_empty_price_amended ".99 руб." (by decide)).2 "A" "5" ["A"] (by decide)).1⟩

/-- C7: when the snapshot contains several records for the same sku of the
(duplicate-free) known set, only the first record is applied: the emitted
update list contains the update built from the first matching record, and
that sku appears in exactly one emitted update — later duplicates are
silently ignored. -/
theorem C7_first_match_wins (ws : List InventoryRecord) (ids : List String)
    (s : String) (stocks : List Seller.StockUpdate) (w : InventoryRecord) (q : Int)
    (hnd : ids.Nodup) (hs : s ∈ ids)
    (h : Seller.create_stocks ws ids = some stocks)
    (hw : ws.find? (fun r => r.kod == s) = some w)
    (hq : normalizeQuantity w.kolichestvo = some q) :
    Seller.StockUpdate.mk s q ∈ stocks ∧
    (stocks.map Seller.StockUpdate.offer_id).count s = 1 := by
  obtain ⟨st, rest, ha, rfl⟩ := Seller.sellerStocks_eq_some ws ids stocks h
  have hmem : Seller.StockUpdate.mk s q ∈ st :=
    Seller.sellerAux_first_match ws ids s w q st rest hs hw hq ha
  have hmem' : Seller.StockUpdate.mk s q ∈
      st ++ rest.map (fun oid => { offer_id := oid, stock := 0 }) :=
    List.mem_append_left _ hmem
  refine ⟨hmem', ?_⟩
  have hmap := Seller.sellerStocks_map_skus ws ids _ h
  have hnodup : ((st ++ rest.map (fun oid =>
      ({ offer_id := oid, stock := 0 } : Seller.StockUpdate))).map
        Seller.StockUpdate.offer_id).Nodup := by
    rw [hmap]
    exact (scanIds_append_perm ws ids).symm.nodup hnd
  have hsmem : s ∈ (st ++ rest.map (fun oid =>
      ({ offer_id := oid, stock := 0 } : Seller.StockUpdate))).map
        Seller.StockUpdate.offer_id :=
    List.mem_map.mpr ⟨Seller.StockUpdate.mk s q, hmem', rfl⟩
  exact List.count_eq_one_of_mem hnodup hsmem

theorem C7_first_match_wins_witness :
    Seller.StockUpdate.mk "A" 7 ∈ ([⟨"A", 7⟩] : List Seller.StockUpdate) ∧
    (([⟨"A", 7⟩] : List Seller.StockUpdate).map Seller.StockUpdate.offer_id).count "A" = 1 :=
  C7_first_match_wins [⟨"A", "7", "1"⟩, ⟨"A", "9", "1"⟩] ["A"] "A" [⟨"A", 7⟩]
    ⟨"A", "7", "1"⟩ 7 (by decide) (by decide) (by decide) (by decide) (by decide)

/-- C10: within one call of the Yandex.Market reconciler every emitted
stock update — including the quantity-0 entries for unmatched remote
skus — carries the single timestamp computed at the start of the call. -/
theorem C10_market_single_timestamp (ws : List InventoryRecord) (ids : List String)
    (wh date : String) (stocks : List Market.MarketStockUpdate)
    (h : Market.create_stocks ws ids wh date = some stocks) :
    ∀ u ∈ stocks, ∀ it ∈ u.items, it.updatedAt = date := by
  obtain ⟨st, rest, ha, rfl⟩ := Market.marketStocks_eq_some ws ids wh date stocks h
  intro u hu it hit
  rcases List.mem_append.mp hu with hu1 | hu2
  · exact Market.marketAux_date wh date ws ids st rest ha u hu1 it hit
  · obtain ⟨oid, -, rfl⟩ := List.mem_map.mp hu2
    simp only [List.mem_singleton] at hit
    subst hit
    rfl

theorem C10_market_single_timestamp_witness :
    (Market.MarketStockItem.mk 0 "FIT" "D").updatedAt = "D" :=
  C10_market_single_timestamp [⟨"A", "7", "100"⟩] ["A", "B"] "W" "D"
    [⟨"A", "W", [⟨7, "FIT", "D"⟩]⟩, ⟨"B", "W", [⟨0, "FIT", "D"⟩]⟩] (by decide)
    ⟨"B", "W", [⟨0, "FIT", "D"⟩]⟩ (by decide) ⟨0, "FIT", "D"⟩ (by decide)

/-! ## Lemmas about the batch partitioner -/

theorem divide_nil (n : Nat) : Seller.divide ([] : List α) n = [] := by
  cases n <;> simp [Seller.divide]

theorem divide_cons (a : α) (l : List α) (n : Nat) :
    Seller.divide (a :: l) (n + 1) =
      (a :: l).take (n + 1) :: Seller.divide ((a :: l).drop (n + 1)) (n + 1) := by
  simp [Seller.divide]

theorem divide_join (n : Nat) :
    ∀ (m : Nat) (l : List α), l.length ≤ m → (Seller.divide l (n + 1)).flatten = l := by
  intro m
  induction m with
  | zero =>
    intro l hl
    have : l = [] := List.length_eq_zero.mp (Nat.le_zero.mp hl)
    subst this
    simp [divide_nil]
  | succ m ih =>
    intro l hl
    cases l with
    | nil => simp [divide_nil]
    | cons a l' =>
      rw [divide_cons, List.flatten_cons]
      rw [ih ((a :: l').drop (n + 1)) (by simp at hl ⊢; omega)]
      exact List.take_append_drop _ _

theorem divide_chunk_lengths (n : Nat) :
    ∀ (m : Nat) (l : List α), l.length ≤ m →
      ∀ c ∈ (Seller.divide l (n + 1)).dropLast, c.length = n + 1 := by
  intro m
  induction m with
  | zero =>
    intro l hl c hc
    have : l = [] := List.length_eq_zero.mp (Nat.le_zero.mp hl)
    subst this
    simp [divide_nil] at hc
  | succ m ih =>
    intro l hl c hc
    cases l with
    | nil => simp [divide_nil] at hc
    | cons a l' =>
      rw [divide_cons] at hc
      cases hd : Seller.divide ((a :: l').drop (n + 1)) (n + 1) with
      | nil => rw [hd] at hc; simp at hc
      | cons b d =>
        rw [hd, List.dropLast_cons₂] at hc
        rcases List.mem_cons.mp hc with rfl | hc'
        · have hne : (a :: l').drop (n + 1) ≠ [] := by
            intro hnil
            rw [hnil, divide_nil] at hd
            exact List.noConfusion hd
          have hpos := List.length_pos.mpr hne
          simp only [List.length_drop, List.length_cons] at hpos
          simp only [List.length_take, List.length_cons]
          omega
        · have hlen : ((a :: l').drop (n + 1)).length ≤ m := by
            simp only [List.length_drop, List.length_cons]
            simp only [List.length_cons] at hl
            omega
          exact ih ((a :: l').drop (n + 1)) hlen c (by rw [hd]; exact hc')

/-- C8: for every list and every chunk size n > 0, concatenating the
chunks produced by divide reproduces the list exactly, every chunk except
possibly the last has length exactly n, and the empty list yields zero
chunks. -/
theorem C8_divide_partition {α : Type} (l : List α) (n : Nat) (hn : 0 < n) :
    (Seller.divide l n).flatten = l ∧
    (∀ c ∈ (Seller.divide l n).dropLast, c.length = n) ∧
    Seller.divide ([] : List α) n = [] := by
  obtain ⟨k, rfl⟩ : ∃ k, n = k + 1 := ⟨n - 1, by omega⟩
  exact ⟨divide_join k l.length l le_rfl,
         divide_chunk_lengths k l.length l le_rfl,
         divide_nil (k + 1)⟩

theorem C8_divide_partition_witness :
    0 < 2 ∧
    ((Seller.divide [1, 2, 3, 4, 5] 2).flatten = [1, 2, 3, 4, 5] ∧
     (∀ c ∈ (Seller.divide [1, 2, 3, 4, 5] 2).dropLast, c.length = 2) ∧
     Seller.divide ([] : List Nat) 2 = []) :=
  ⟨by decide, C8_divide_partition [1, 2, 3, 4, 5] 2 (by decide)⟩

/-! ## Lemmas about the catalog walkers -/

theorem Market.chain_shift (fetch : String → Market.MarketPage) (c : String) :
    ∀ k, Market.chain fetch c (k + 1) =
      Market.chain fetch ((fetch c).nextPageToken) k := by
  intro k
  induction k with
  | zero => rfl
  | succ k ih =>
    show (fetch (Market.chain fetch c (k + 1))).nextPageToken =
      Market.chain fetch ((fetch c).nextPageToken) (k + 1)
    rw [ih]
    rfl

theorem Market.walk_isSome_iff (fetch : String → Market.MarketPage) :
    ∀ (fuel : Nat) (c : String) (acc : List Market.MarketEntry),
      (Market.walk fetch fuel c acc).isSome = true ↔
        ∃ k < fuel, (fetch (Market.chain fetch c k)).nextPageToken = "" := by
  intro fuel
  induction fuel with
  | zero =>
    intro c acc
    simp [Market.walk]
  | succ fuel ih =>
    intro c acc
    by_cases h : (fetch c).nextPageToken = ""
    · simp only [Market.walk, h, if_pos]
      constructor
      · intro _
        exact ⟨0, Nat.succ_pos fuel, by simpa [Market.chain] using h⟩
      · intro _
        simp
    · simp only [Market.walk, if_neg h]
      rw [ih ((fetch c).nextPageToken) (acc ++ (fetch c).offerMappingEntries)]
      constructor
      · rintro ⟨k, hk, hp⟩
        refine ⟨k + 1, by omega, ?_⟩
        rw [show Market.chain fetch c (k + 1) =
          Market.chain fetch ((fetch c).nextPageToken) k from Market.chain_shift fetch c k]
        exact hp
      · rintro ⟨k, hk, hp⟩
        cases k with
        | zero => exact absurd hp h
        | succ j =>
          refine ⟨j, by omega, ?_⟩
          rw [← Market.chain_shift fetch c j]
          exact hp

/-- C2 counterexample: the Ozon catalog walker stops as soon as the
reported total equals the number of accumulated items, even though this
collaborator's continuation cursor is the non-empty constant "NEXT" — so
its termination condition is not (solely) an empty or absent cursor. -/
theorem C2_cursor_counterexample :
    Seller.get_offer_ids fetchTotalStop 1 = some ["A"] ∧
    (fetchTotalStop "").last_id = "NEXT" ∧
    (fetchTotalStop "NEXT").last_id = "NEXT" := by decide

/-- C2 amended: the Yandex.Market walker is solely cursor-driven — it
terminates exactly when the collaborator's cursor chain reaches an empty
or absent next-page token after finitely many pages (the Ozon walker
instead stops when the reported total equals the accumulated item count,
see the counterexample). -/
theorem C2_cursor_termination_amended (fetch : String → Market.MarketPage) :
    ((∃ k, Market.chain fetch "" (k + 1) = "") →
      ∃ fuel, (Market.get_offer_ids fetch fuel).isSome = true) ∧
    (∀ fuel, (Market.get_offer_ids fetch fuel).isSome = true →
      ∃ k, Market.chain fetch "" (k + 1) = "") := by
  have hiso : ∀ fuel, (Market.get_offer_ids fetch fuel).isSome =
      (Market.walk fetch fuel "" []).isSome := by
    intro fuel
    unfold Market.get_offer_ids
    cases Market.walk fetch fuel "" [] <;> simp
  constructor
  · rintro ⟨k, hk⟩
    refine ⟨k + 1, ?_⟩
    rw [hiso]
    exact (Market.walk_isSome_iff fetch (k + 1) "" []).mpr ⟨k, by omega, hk⟩
  · intro fuel h
    rw [hiso] at h
    obtain ⟨k, -, hp⟩ := (Market.walk_isSome_iff fetch fuel "" []).mp h
    exact ⟨k, hp⟩

theorem C2_cursor_termination_amended_witness :
    Market.chain fetchOnePage "" 1 = "" ∧
    ∃ fuel, (Market.get_offer_ids fetchOnePage fuel).isSome = true :=
  ⟨rfl, (C2_cursor_termination_amended fetchOnePage).1 ⟨0, rfl⟩⟩
